import Mathlib

/-
Verification of the patch-applier script `fix_defer.py`.

The script reads one hardcoded file, applies three chained Python
`str.replace` calls, and writes the result back to the same path:

  content = content.replace("defer, Await } from \"react-router\";",
                            "Await } from \"react-router\";")
  content = content.replace("return defer({", "return {")
  content = content.replace("  });\n};", "  };\n};")

File contents are modelled as `List Char`.  Python's `str.replace old new`
replaces every non-overlapping occurrence of `old`, scanning left to right;
for an empty `old` it inserts `new` between all characters and at both ends.
`replaceAllF` embeds that semantics with an explicit fuel argument (the fuel
only has to dominate the length of the remaining input; each step consumes at
least one character when the needle is nonempty, and exactly one otherwise).
-/

namespace FixDefer

def replaceAllF (s r : List Char) : Nat → List Char → List Char
  | 0, c => c
  | _ + 1, [] => if s = [] then r else []
  | fuel + 1, ch :: rest =>
    if s = [] then r ++ ch :: replaceAllF s r fuel rest
    else if s <+: ch :: rest then r ++ replaceAllF s r fuel (rest.drop (s.length - 1))
    else ch :: replaceAllF s r fuel rest

/-- Embedding of Python `content.replace s r`: replace every non-overlapping
occurrence of `s` in `c` by `r`, scanning left to right. -/
def replaceAll (s r c : List Char) : List Char :=
  replaceAllF s r (c.length + 1) c

/-- Search literal of the first replace call in `fix_defer.py`. -/
def search1 : List Char := "defer, Await \x7d from \"react-router\";".data

/-- Replacement literal of the first replace call. -/
def repl1 : List Char := "Await \x7d from \"react-router\";".data

/-- Search literal of the second replace call. -/
def search2 : List Char := "return defer(\x7b".data

/-- Replacement literal of the second replace call. -/
def repl2 : List Char := "return \x7b".data

/-- Search literal of the third replace call. -/
def search3 : List Char := "  \x7d);\n\x7d;".data

/-- Replacement literal of the third replace call. -/
def repl3 : List Char := "  \x7d;\n\x7d;".data

/-- The three replacement rules, in the order the script applies them. -/
def rules : List (List Char × List Char) :=
  [(search1, repl1), (search2, repl2), (search3, repl3)]

/-- The content transformation of `fix_defer.py`: the three `str.replace`
calls chained in program order. -/
def fixContent (content : List Char) : List Char :=
  replaceAll search3 repl3 (replaceAll search2 repl2 (replaceAll search1 repl1 content))

/-- The single hardcoded path the script touches. -/
def targetPath : String := "app/routes/app._index.tsx"

/-- A filesystem: a partial map from paths to file contents. -/
def FileSystem : Type := String → Option (List Char)

/-- Observable filesystem events performed by a run of the script. -/
inductive Event : Type where
  | readFile : String → List Char → Event
  | writeFile : String → List Char → Event
deriving DecidableEq

/-- One run of `fix_defer.py` over a filesystem: open/read the target path
(failing, with nothing written, when it is absent), transform the content,
then open the same path for writing and write the result back.  Returns the
updated filesystem (`none` when the run aborted at the read) together with
the trace of file events in program order. -/
def runScript (fs : FileSystem) : Option FileSystem × List Event :=
  match fs targetPath with
  | none => (none, [])
  | some content =>
    let out := fixContent content
    (some (fun p => if p = targetPath then some out else fs p),
     [Event.readFile targetPath content, Event.writeFile targetPath out])

/-- The filesystem after a run: unchanged when the run failed. -/
def finalFs (fs : FileSystem) : FileSystem :=
  ((runScript fs).1).getD fs

/-- Positions (possibly overlapping) at which `s` matches inside `c`. -/
def occPositions (s c : List Char) : List Nat :=
  (List.range (c.length + 1)).filter fun i => decide (s <+: c.drop i)

/-- Number of positions at which `s` matches inside `c`; `countOccs s c = 1`
says that `c` contains `s` exactly once. -/
def countOccs (s c : List Char) : Nat := (occPositions s c).length

/-- `t` cannot touch the middle block `x`: in any `a ++ x ++ b`, no occurrence
of `t` can intersect the `x` region.  All conjuncts are decidable, so the
condition is checked by `decide` on the concrete literals of the script. -/
@[reducible] def separated (t x : List Char) : Prop :=
  t ≠ [] ∧ x ≠ [] ∧ ¬ t <+: x ∧ ¬ x <+: t ∧
  (∀ k, k < t.length → 0 < k → ¬ t.drop k <+: x ∧ ¬ x <+: t.drop k) ∧
  (∀ j, j < x.length → 0 < j → ¬ x.drop j <+: t ∧ ¬ t <+: x.drop j)

/-- No occurrence of `s` can cross either boundary of the middle block `mid`
in `a ++ mid ++ b`, whatever `a` and `b` are: every match of `s` lies entirely
inside `a`, inside `mid`, or inside `b`.  Decidable on concrete literals. -/
@[reducible] def splitInert (s mid : List Char) : Prop :=
  s ≠ [] ∧
  (∀ k, k < s.length → 0 < k → ¬ s.drop k <+: mid ∧ ¬ mid <+: s.drop k) ∧
  (∀ j, j < mid.length → mid.length - j < s.length → ¬ mid.drop j <+: s)

/-- The import line of the spec scenario, before the transformation. -/
def lineImportIn : List Char := "import \x7b defer, Await \x7d from \"react-router\";\n".data

/-- The import line of the spec scenario, after the transformation. -/
def lineImportOut : List Char := "import \x7b Await \x7d from \"react-router\";\n".data

/-- The `return defer({` line of the spec scenario, before the transformation. -/
def lineReturnIn : List Char := "  return defer(\x7b".data

/-- The `return defer({` line of the spec scenario, after the transformation. -/
def lineReturnOut : List Char := "  return \x7b".data

/-- A content containing each of the three search literals exactly once. -/
def wOnce : List Char :=
  "defer, Await \x7d from \"react-router\";\nreturn defer(\x7b\n  \x7d);\n\x7d;\n".data

/-- A content on which rule 1's replacement recreates rule 1's search literal. -/
def cxTwice : List Char := "defer, defer, Await \x7d from \"react-router\";".data

/-- A short content containing none of the search literals. -/
def wHello : List Char := "hello world".data

/-- Another short content containing none of the search literals. -/
def wShort : List Char := "hello".data

/-- A filesystem holding an inert content at the target path. -/
def wFs : FileSystem := fun p => if p = targetPath then some wHello else none

/-- A second filesystem agreeing with `wFs` at the target path only. -/
def wFs2 : FileSystem := fun p => if p = targetPath then some wHello else some []

/-- The empty filesystem. -/
def wFsEmpty : FileSystem := fun _ => none

-- Sanity checks that the embedding agrees with Python `str.replace` on
-- representative inputs ("ab cab".replace("ab", "X") == "X cX", the
-- non-overlapping scan "aaa".replace("aa", "b") == "ba", and the
-- empty-needle behavior "ab".replace("", "-") == "-a-b-").
theorem replaceAll_model_1 : replaceAll ("ab".data) ("X".data) ("ab cab".data) = "X cX".data := by
  decide

theorem replaceAll_model_2 : replaceAll ("aa".data) ("b".data) ("aaa".data) = "ba".data := by
  decide

theorem replaceAll_model_3 : replaceAll ("".data) ("-".data) ("ab".data) = "-a-b-".data := by
  decide

theorem fixContent_model : fixContent ("return defer(\x7b".data) = "return \x7b".data := by
  decide

/-- The list `l₁ <+: l₂` relation unfolded to its existential definition. -/
theorem pfx_iff {l₁ l₂ : List Char} : l₁ <+: l₂ ↔ ∃ t, l₁ ++ t = l₂ := Iff.rfl

theorem pfx_take (n : Nat) (l : List Char) : l.take n <+: l :=
  ⟨l.drop n, List.take_append_drop n l⟩

theorem pfx_length_le {l₁ l₂ : List Char} (h : l₁ <+: l₂) : l₁.length ≤ l₂.length := by
  obtain ⟨t, ht⟩ := pfx_iff.mp h
  have hl := congrArg List.length ht
  simp only [List.length_append] at hl
  omega

theorem pfx_eq_take {l₁ l₂ : List Char} (h : l₁ <+: l₂) : l₁ = l₂.take l₁.length := by
  obtain ⟨t, ht⟩ := pfx_iff.mp h
  rw [← ht, List.take_left]

/-- Two prefixes of the same list are comparable: the shorter one starts the longer. -/
theorem pfx_comparable {l₁ l₂ z : List Char} (h₁ : l₁ <+: z) (h₂ : l₂ <+: z)
    (hlen : l₁.length ≤ l₂.length) : l₁ <+: l₂ := by
  have e1 : l₂.take l₁.length = l₁ := by
    conv_lhs => rw [pfx_eq_take h₂]
    rw [List.take_take, Nat.min_eq_left hlen, ← pfx_eq_take h₁]
  rw [← e1]
  exact pfx_take _ _

theorem pfx_extend {l₁ l₂ : List Char} (m : List Char) (h : l₁ <+: l₂) : l₁ <+: l₂ ++ m := by
  obtain ⟨t, ht⟩ := pfx_iff.mp h
  exact ⟨t ++ m, by rw [← List.append_assoc, ht]⟩

theorem pfx_cancel {p q z : List Char} (h : p ++ q <+: p ++ z) : q <+: z := by
  obtain ⟨t, ht⟩ := pfx_iff.mp h
  refine ⟨t, ?_⟩
  have h2 : p ++ (q ++ t) = p ++ z := by rw [← List.append_assoc, ht]
  have h3 := congrArg (List.drop p.length) h2
  rwa [List.drop_left, List.drop_left] at h3

/-- The fuel in `replaceAllF` is irrelevant once it dominates the input length. -/
theorem replaceAllF_congr (s r : List Char) :
    ∀ f g c, c.length < f → c.length < g → replaceAllF s r f c = replaceAllF s r g c := by
  intro f
  induction f with
  | zero => intro g c hf hg; exact absurd hf (Nat.not_lt_zero _)
  | succ f ih =>
    intro g c hf hg
    match g, c with
    | 0, c => exact absurd hg (Nat.not_lt_zero _)
    | g + 1, [] => rfl
    | g + 1, ch :: rest =>
      simp only [replaceAllF]
      have hrest : rest.length < f := by
        simp only [List.length_cons] at hf; omega
      have hrest2 : rest.length < g := by
        simp only [List.length_cons] at hg; omega
      by_cases hsnil : s = []
      · simp only [if_pos hsnil, ih g rest hrest hrest2]
      · simp only [if_neg hsnil]
        by_cases hp : s <+: ch :: rest
        · simp only [if_pos hp]
          have hd : (rest.drop (s.length - 1)).length < f := by
            simp only [List.length_drop]; omega
          have hd2 : (rest.drop (s.length - 1)).length < g := by
            simp only [List.length_drop]; omega
          rw [ih g _ hd hd2]
        · simp only [if_neg hp, ih g rest hrest hrest2]

theorem replaceAll_nil (s r : List Char) :
    replaceAll s r [] = if s = [] then r else [] := rfl

/-- Unfolding equation for `replaceAll` on a nonempty input. -/
theorem replaceAll_cons (s r : List Char) (ch : Char) (rest : List Char) :
    replaceAll s r (ch :: rest) =
      if s = [] then r ++ ch :: replaceAll s r rest
      else if s <+: ch :: rest then r ++ replaceAll s r (rest.drop (s.length - 1))
      else ch :: replaceAll s r rest := by
  show replaceAllF s r ((ch :: rest).length + 1) (ch :: rest) = _
  simp only [List.length_cons]
  simp only [replaceAllF]
  by_cases hsnil : s = []
  · simp only [if_pos hsnil]; rfl
  · simp only [if_neg hsnil]
    by_cases hp : s <+: ch :: rest
    · simp only [if_pos hp]
      rw [replaceAllF_congr s r (rest.length + 1) ((rest.drop (s.length - 1)).length + 1) _
        (by simp only [List.length_drop]; omega) (Nat.lt_succ_self _)]
      rfl
    · simp only [if_neg hp]; rfl

/-- If the needle matches at no position, `replaceAll` is the identity. -/
theorem replaceAll_no_match (s r : List Char) :
    ∀ c : List Char, (∀ i, ¬ s <+: c.drop i) → replaceAll s r c = c := by
  intro c
  induction c with
  | nil =>
    intro h
    rw [replaceAll_nil, if_neg]
    intro hsnil
    exact h 0 (by subst hsnil; exact ⟨[], rfl⟩)
  | cons ch rest ih =>
    intro h
    have hs : s ≠ [] := by
      intro hsnil
      exact h 0 (by subst hsnil; exact ⟨ch :: rest, rfl⟩)
    have h0 : ¬ s <+: ch :: rest := h 0
    rw [replaceAll_cons, if_neg hs, if_neg h0, ih (fun i => h (i + 1))]

/-- Strong-induction workhorse for `replaceAll_append`, with an explicit bound
on the length of the left part. -/
theorem replaceAll_append_aux (s r : List Char) (hs : s ≠ []) :
    ∀ (n : Nat) (a m : List Char), a.length ≤ n →
      (∀ i, i < a.length → s <+: (a ++ m).drop i → s <+: a.drop i) →
      replaceAll s r (a ++ m) = replaceAll s r a ++ replaceAll s r m := by
  intro n
  induction n with
  | zero =>
    intro a m hlen h
    have ha : a = [] := List.length_eq_zero.mp (Nat.le_zero.mp hlen)
    subst ha
    simp [replaceAll_nil, hs]
  | succ n ih =>
    intro a m hlen h
    cases a with
    | nil => simp [replaceAll_nil, hs]
    | cons ch a' =>
      simp only [List.length_cons] at hlen
      have hslen : s.length ≠ 0 := fun h0 => hs (List.length_eq_zero.mp h0)
      by_cases hm : s <+: ch :: (a' ++ m)
      · have hma : s <+: ch :: a' := h 0 (by simp) hm
        have hsl : s.length ≤ a'.length + 1 := by
          have := pfx_length_le hma
          simpa using this
        have hdrop : (a' ++ m).drop (s.length - 1) = a'.drop (s.length - 1) ++ m := by
          rw [List.drop_append_eq_append_drop,
            Nat.sub_eq_zero_of_le (show s.length - 1 ≤ a'.length by omega), List.drop_zero]
        rw [List.cons_append, replaceAll_cons, if_neg hs, if_pos hm, hdrop]
        rw [replaceAll_cons, if_neg hs, if_pos hma]
        have hcond : ∀ i, i < (a'.drop (s.length - 1)).length →
            s <+: (a'.drop (s.length - 1) ++ m).drop i →
            s <+: (a'.drop (s.length - 1)).drop i := by
          intro i hi hp
          simp only [List.length_drop] at hi
          have e1 : ((s.length - 1) + i) + 1 = s.length + i := by omega
          have e2 : (a'.drop (s.length - 1)).drop i = (ch :: a').drop (s.length + i) := by
            rw [List.drop_drop, ← e1, List.drop_succ_cons]
          have e3 : (a'.drop (s.length - 1) ++ m).drop i
              = ((ch :: a') ++ m).drop (s.length + i) := by
            rw [← hdrop, List.drop_drop, List.cons_append, ← e1, List.drop_succ_cons]
          rw [e2]
          rw [e3] at hp
          exact h (s.length + i) (by simp only [List.length_cons]; omega) hp
        rw [ih (a'.drop (s.length - 1)) m (by simp only [List.length_drop]; omega) hcond]
        rw [List.append_assoc]
      · have hma : ¬ s <+: ch :: a' := by
          intro hps
          apply hm
          obtain ⟨t, ht⟩ := pfx_iff.mp hps
          exact ⟨t ++ m, by rw [← List.append_assoc, ht]; rfl⟩
        rw [List.cons_append, replaceAll_cons, if_neg hs, if_neg hm]
        rw [replaceAll_cons, if_neg hs, if_neg hma]
        rw [ih a' m (by omega)
          (fun i hi hp => h (i + 1) (by simp only [List.length_cons]; omega) hp)]
        rw [List.cons_append]

/-- When no match of `s` starts inside `a` and overhangs into `m`, the scan of
`a ++ m` decomposes into independent scans of `a` and of `m`. -/
theorem replaceAll_append (s r : List Char) (hs : s ≠ []) (a m : List Char)
    (h : ∀ i, i < a.length → s <+: (a ++ m).drop i → s <+: a.drop i) :
    replaceAll s r (a ++ m) = replaceAll s r a ++ replaceAll s r m :=
  replaceAll_append_aux s r hs a.length a m (Nat.le_refl _) h

/-- If the leftmost match of `s` in `a ++ s ++ b` is the displayed one, the scan
replaces it and continues independently on `b`. -/
theorem replaceAll_leftmost (s r : List Char) (hs : s ≠ []) (a b : List Char)
    (h : ∀ i, i < a.length → ¬ s <+: (a ++ s ++ b).drop i) :
    replaceAll s r (a ++ s ++ b) = a ++ r ++ replaceAll s r b := by
  rw [List.append_assoc]
  have hccat : a ++ s ++ b = a ++ (s ++ b) := List.append_assoc a s b
  have h1 : replaceAll s r (a ++ (s ++ b)) = replaceAll s r a ++ replaceAll s r (s ++ b) := by
    apply replaceAll_append s r hs
    intro i hi hp
    rw [← hccat] at hp
    exact absurd hp (h i hi)
  have h2 : replaceAll s r a = a := by
    apply replaceAll_no_match
    intro i hp
    by_cases hi : i < a.length
    · apply h i hi
      rw [hccat, List.drop_append_eq_append_drop, Nat.sub_eq_zero_of_le (by omega),
        List.drop_zero]
      exact pfx_extend _ hp
    · rw [List.drop_eq_nil_of_le (by omega)] at hp
      obtain ⟨t, ht⟩ := pfx_iff.mp hp
      exact hs (List.append_eq_nil.mp ht).1
  have h3 : replaceAll s r (s ++ b) = r ++ replaceAll s r b := by
    cases s with
    | nil => exact absurd rfl hs
    | cons c0 stail =>
      rw [List.cons_append, replaceAll_cons, if_neg hs,
        if_pos (show c0 :: stail <+: c0 :: (stail ++ b) from ⟨b, rfl⟩)]
      have e : (c0 :: stail).length - 1 = stail.length := by simp
      rw [e, List.drop_left]
  rw [h1, h2, h3, List.append_assoc]

theorem pfx_self_append (l m : List Char) : l <+: l ++ m := ⟨m, rfl⟩

theorem mem_occPositions {s c : List Char} {i : Nat} :
    i ∈ occPositions s c ↔ i ≤ c.length ∧ s <+: c.drop i := by
  simp [occPositions, List.mem_filter, List.mem_range, Nat.lt_succ_iff]

theorem countOccs_eq_countP (s c : List Char) :
    countOccs s c = (List.range (c.length + 1)).countP fun i => decide (s <+: c.drop i) := by
  rw [countOccs, occPositions, List.countP_eq_length_filter]

/-- A nonempty needle occurring exactly once occurs at a unique position. -/
theorem count_one_exists {s c : List Char} (hs : s ≠ []) (h : countOccs s c = 1) :
    ∃ i, (i ≤ c.length ∧ s <+: c.drop i) ∧ ∀ j, s <+: c.drop j → j = i := by
  have h' : (occPositions s c).length = 1 := h
  obtain ⟨x, hx⟩ := List.length_eq_one.mp h'
  have hxmem : x ∈ occPositions s c := by rw [hx]; exact List.mem_cons_self x []
  obtain ⟨hxle, hxp⟩ := mem_occPositions.mp hxmem
  refine ⟨x, ⟨hxle, hxp⟩, ?_⟩
  intro j hj
  have hjle : j ≤ c.length := by
    by_contra hgt
    rw [List.drop_eq_nil_of_le (by omega)] at hj
    obtain ⟨t, ht⟩ := pfx_iff.mp hj
    exact hs (List.append_eq_nil.mp ht).1
  have hjmem : j ∈ occPositions s c := mem_occPositions.mpr ⟨hjle, hj⟩
  rw [hx] at hjmem
  simpa using hjmem

/-- A content containing `s` exactly once decomposes around that occurrence,
and `replaceAll` rewrites exactly it, leaving the context verbatim. -/
theorem replaceAll_single (s r c : List Char) (hs : s ≠ []) (h : countOccs s c = 1) :
    ∃ a b, c = a ++ s ++ b ∧ replaceAll s r c = a ++ r ++ b := by
  have hslen : s.length ≠ 0 := fun h0 => hs (List.length_eq_zero.mp h0)
  obtain ⟨i0, ⟨hle, hp⟩, huniq⟩ := count_one_exists hs h
  obtain ⟨t, ht⟩ := pfx_iff.mp hp
  have hc : c = c.take i0 ++ s ++ t := by
    rw [List.append_assoc, ht, List.take_append_drop]
  have hlen_take : (c.take i0).length = i0 := by
    simp only [List.length_take]
    omega
  have ht' : t = c.drop (i0 + s.length) := by
    have h2 : t = (c.drop i0).drop s.length := by rw [← ht, List.drop_left]
    rwa [List.drop_drop] at h2
  have hT : replaceAll s r t = t := by
    apply replaceAll_no_match
    intro j hpj
    rw [ht', List.drop_drop] at hpj
    have := huniq _ hpj
    omega
  have hRA : replaceAll s r (c.take i0 ++ s ++ t) = c.take i0 ++ r ++ replaceAll s r t := by
    apply replaceAll_leftmost s r hs
    intro i hi hpi
    rw [← hc] at hpi
    rw [hlen_take] at hi
    have := huniq i hpi
    omega
  refine ⟨c.take i0, t, hc, ?_⟩
  conv_lhs => rw [hc]
  rw [hRA, hT]

/-- Under `separated t x`, every match of `t` in `a ++ x ++ b` that starts
before the end of the `x` region in fact lies entirely inside `a`. -/
theorem sep_no_middle {t x : List Char} (hsep : separated t x) (a b : List Char) :
    ∀ i, i < a.length + x.length → t <+: (a ++ x ++ b).drop i →
      i + t.length ≤ a.length ∧ t <+: a.drop i := by
  obtain ⟨htne, hxne, htx, hxt, hsuf_t, hsuf_x⟩ := hsep
  have htl : t.length ≠ 0 := fun h0 => htne (List.length_eq_zero.mp h0)
  have hxl : x.length ≠ 0 := fun h0 => hxne (List.length_eq_zero.mp h0)
  intro i hi hp
  rw [List.append_assoc] at hp
  by_cases hfit : i + t.length ≤ a.length
  · -- the match fits inside `a`
    have hdropi : (a ++ (x ++ b)).drop i = a.drop i ++ (x ++ b) := by
      rw [List.drop_append_eq_append_drop,
        Nat.sub_eq_zero_of_le (show i ≤ a.length by omega), List.drop_zero]
    rw [hdropi] at hp
    refine ⟨hfit, pfx_comparable hp (pfx_self_append _ _) ?_⟩
    simp only [List.length_drop]
    omega
  · exfalso
    by_cases hia : i ≤ a.length
    · -- the match starts in (or at the end of) `a` and overhangs into `x`
      have hdropi : (a ++ (x ++ b)).drop i = a.drop i ++ (x ++ b) := by
        rw [List.drop_append_eq_append_drop,
          Nat.sub_eq_zero_of_le hia, List.drop_zero]
      rw [hdropi] at hp
      have hklen : (a.drop i).length = a.length - i := List.length_drop i a
      have hshort : (a.drop i).length ≤ t.length := by omega
      have hat : a.drop i <+: t := pfx_comparable (pfx_self_append _ _) hp hshort
      set k := a.length - i with hk
      have hkt : k < t.length := by omega
      have htk : t = a.drop i ++ t.drop k := by
        conv_lhs => rw [← List.take_append_drop k t]
        rw [pfx_eq_take hat, hklen]
      have hu : t.drop k <+: x ++ b := by
        apply pfx_cancel
        rw [← htk]
        exact hp
      have hule : (t.drop k).length = t.length - k := List.length_drop k t
      by_cases hux : (t.drop k).length ≤ x.length
      · have h1 : t.drop k <+: x := pfx_comparable hu (pfx_self_append _ _) (by omega)
        by_cases hk0 : k = 0
        · apply htx
          have : t.drop k = t := by rw [hk0, List.drop_zero]
          rwa [this] at h1
        · exact (hsuf_t k hkt (by omega)).1 h1
      · have h1 : x <+: t.drop k := pfx_comparable (pfx_self_append _ _) hu (by omega)
        by_cases hk0 : k = 0
        · apply hxt
          have : t.drop k = t := by rw [hk0, List.drop_zero]
          rwa [this] at h1
        · exact (hsuf_t k hkt (by omega)).2 h1
    · -- the match starts strictly inside `x`
      set j := i - a.length with hj
      have hj0 : 0 < j := by omega
      have hjx : j < x.length := by omega
      have hdropi : (a ++ (x ++ b)).drop i = x.drop j ++ b := by
        rw [List.drop_append_eq_append_drop, List.drop_eq_nil_of_le (show a.length ≤ i by omega),
          List.nil_append, List.drop_append_eq_append_drop,
          Nat.sub_eq_zero_of_le (show i - a.length ≤ x.length by omega), List.drop_zero]
      rw [hdropi] at hp
      have hjlen : (x.drop j).length = x.length - j := List.length_drop j x
      by_cases htj : t.length ≤ (x.drop j).length
      · have h1 : t <+: x.drop j := pfx_comparable hp (pfx_self_append _ _) htj
        exact (hsuf_x j hjx hj0).2 h1
      · have h1 : x.drop j <+: t := pfx_comparable (pfx_self_append _ _) hp (by omega)
        exact (hsuf_x j hjx hj0).1 h1

/-- Under `separated t x`, occurrences of `t` in `a ++ x ++ b` are exactly the
occurrences in `a` plus those in `b`: swapping the block `x` cannot change
the count. -/
theorem countOccs_split {t x : List Char} (hsep : separated t x) (a b : List Char) :
    countOccs t (a ++ x ++ b) = countOccs t a + countOccs t b := by
  have htne := hsep.1
  have hxne := hsep.2.1
  have htl : t.length ≠ 0 := fun h0 => htne (List.length_eq_zero.mp h0)
  have hxl : x.length ≠ 0 := fun h0 => hxne (List.length_eq_zero.mp h0)
  rw [countOccs_eq_countP, countOccs_eq_countP, countOccs_eq_countP]
  have hclen : (a ++ x ++ b).length = a.length + x.length + b.length := by
    simp only [List.length_append]
  have hsplit : List.range ((a ++ x ++ b).length + 1)
      = List.range (a.length + x.length)
        ++ (List.range (b.length + 1)).map ((a.length + x.length) + ·) := by
    rw [hclen,
      show a.length + x.length + b.length + 1 = (a.length + x.length) + (b.length + 1) by omega,
      List.range_add]
  rw [hsplit, List.countP_append, List.countP_map]
  congr 1
  · -- matches starting before the end of the x-region are exactly the matches in a
    have hA : ∀ i ∈ List.range (a.length + x.length),
        decide (t <+: (a ++ x ++ b).drop i) = decide (t <+: a.drop i) := by
      intro i hi
      rw [List.mem_range] at hi
      rw [decide_eq_decide]
      constructor
      · intro hp
        exact (sep_no_middle hsep a b i hi hp).2
      · intro hp
        have hfit : i + t.length ≤ a.length := by
          have := pfx_length_le hp
          simp only [List.length_drop] at this
          omega
        have hdropi : (a ++ x ++ b).drop i = a.drop i ++ (x ++ b) := by
          rw [List.append_assoc, List.drop_append_eq_append_drop,
            Nat.sub_eq_zero_of_le (show i ≤ a.length by omega), List.drop_zero]
        rw [hdropi]
        exact pfx_extend _ hp
    rw [List.countP_congr (fun i hi => by rw [hA i hi])]
    have hsplit2 : List.range (a.length + x.length)
        = List.range (a.length + 1)
          ++ (List.range (x.length - 1)).map ((a.length + 1) + ·) := by
      rw [show a.length + x.length = (a.length + 1) + (x.length - 1) by omega, List.range_add]
    rw [hsplit2, List.countP_append]
    have hzero : ((List.range (x.length - 1)).map ((a.length + 1) + ·)).countP
        (fun i => decide (t <+: a.drop i)) = 0 := by
      rw [List.countP_eq_zero]
      intro i hi
      simp only [List.mem_map] at hi
      obtain ⟨j, _, hj⟩ := hi
      simp only [decide_eq_true_eq]
      intro hp
      rw [List.drop_eq_nil_of_le (by omega)] at hp
      obtain ⟨u, hu⟩ := pfx_iff.mp hp
      exact htne (List.append_eq_nil.mp hu).1
    rw [hzero, Nat.add_zero]
  · -- matches starting at or after the end of the x-region are the matches in b
    apply List.countP_congr
    intro i hi
    rw [List.mem_range] at hi
    simp only [Function.comp]
    have hdropi : (a ++ x ++ b).drop (a.length + x.length + i) = b.drop i := by
      rw [List.drop_append_eq_append_drop,
        List.drop_eq_nil_of_le
          (show (a ++ x).length ≤ a.length + x.length + i by
            simp only [List.length_append]; omega),
        List.nil_append]
      congr 1
      simp only [List.length_append]
      omega
    rw [hdropi]

/-- A match of the needle somewhere in `c` is an infix occurrence. -/
theorem no_match_of_not_inf {s c : List Char} (h : ¬ s <:+: c) : ∀ i, ¬ s <+: c.drop i := by
  intro i hpi
  apply h
  obtain ⟨t, ht⟩ := pfx_iff.mp hpi
  exact ⟨c.take i, t, by rw [List.append_assoc, ht, List.take_append_drop]⟩

/-- Under `splitInert s mid`, the scan of `a ++ mid ++ b` decomposes into the
three independent scans, for arbitrary context `a` and `b`. -/
theorem replaceAll_split3 (s r mid : List Char) (h : splitInert s mid) (a b : List Char) :
    replaceAll s r (a ++ mid ++ b)
      = replaceAll s r a ++ replaceAll s r mid ++ replaceAll s r b := by
  obtain ⟨hs, hcrossL, hcrossR⟩ := h
  have hslen : s.length ≠ 0 := fun h0 => hs (List.length_eq_zero.mp h0)
  have h1 : replaceAll s r (a ++ (mid ++ b))
      = replaceAll s r a ++ replaceAll s r (mid ++ b) := by
    apply replaceAll_append s r hs
    intro i hi hp
    have hdropi : (a ++ (mid ++ b)).drop i = a.drop i ++ (mid ++ b) := by
      rw [List.drop_append_eq_append_drop,
        Nat.sub_eq_zero_of_le (show i ≤ a.length by omega), List.drop_zero]
    rw [hdropi] at hp
    by_cases hfit : i + s.length ≤ a.length
    · exact pfx_comparable hp (pfx_self_append _ _) (by simp only [List.length_drop]; omega)
    · exfalso
      have hshort : (a.drop i).length ≤ s.length := by simp only [List.length_drop]; omega
      have hat : a.drop i <+: s := pfx_comparable (pfx_self_append _ _) hp hshort
      have hklen : (a.drop i).length = a.length - i := List.length_drop i a
      set k := a.length - i with hk
      have hkt : k < s.length := by omega
      have hk0 : 0 < k := by omega
      have hsk : s = a.drop i ++ s.drop k := by
        conv_lhs => rw [← List.take_append_drop k s]
        rw [pfx_eq_take hat, hklen]
      have hu : s.drop k <+: mid ++ b := by
        apply pfx_cancel
        rw [← hsk]
        exact hp
      have hule : (s.drop k).length = s.length - k := List.length_drop k s
      by_cases hux : (s.drop k).length ≤ mid.length
      · exact (hcrossL k hkt hk0).1 (pfx_comparable hu (pfx_self_append _ _) hux)
      · exact (hcrossL k hkt hk0).2 (pfx_comparable (pfx_self_append _ _) hu (by omega))
  have h2 : replaceAll s r (mid ++ b) = replaceAll s r mid ++ replaceAll s r b := by
    apply replaceAll_append s r hs
    intro j hj hp
    have hdropj : (mid ++ b).drop j = mid.drop j ++ b := by
      rw [List.drop_append_eq_append_drop,
        Nat.sub_eq_zero_of_le (show j ≤ mid.length by omega), List.drop_zero]
    rw [hdropj] at hp
    by_cases hfit : j + s.length ≤ mid.length
    · exact pfx_comparable hp (pfx_self_append _ _) (by simp only [List.length_drop]; omega)
    · exfalso
      have h1' : mid.drop j <+: s :=
        pfx_comparable (pfx_self_append _ _) hp (by simp only [List.length_drop]; omega)
      exact hcrossR j hj (by omega) h1'
  calc replaceAll s r (a ++ mid ++ b)
      = replaceAll s r (a ++ (mid ++ b)) := by rw [List.append_assoc]
    _ = replaceAll s r a ++ (replaceAll s r mid ++ replaceAll s r b) := by rw [h1, h2]
    _ = replaceAll s r a ++ replaceAll s r mid ++ replaceAll s r b :=
        (List.append_assoc _ _ _).symm

/-- Claim C1: for every content containing each of the three search literals
exactly once, each chained replace rewrites exactly its occurrence, leaving
every other character of the content unchanged: each intermediate content
decomposes around the unique occurrence, and the step output is the same
decomposition with the replacement substituted and the context verbatim. -/
theorem claim1 (c : List Char) (h1 : countOccs search1 c = 1)
    (h2 : countOccs search2 c = 1) (h3 : countOccs search3 c = 1) :
    ∃ a1 b1 a2 b2 a3 b3,
      c = a1 ++ search1 ++ b1 ∧
      replaceAll search1 repl1 c = a1 ++ repl1 ++ b1 ∧
      a1 ++ repl1 ++ b1 = a2 ++ search2 ++ b2 ∧
      replaceAll search2 repl2 (replaceAll search1 repl1 c) = a2 ++ repl2 ++ b2 ∧
      a2 ++ repl2 ++ b2 = a3 ++ search3 ++ b3 ∧
      fixContent c = a3 ++ repl3 ++ b3 := by
  obtain ⟨a1, b1, hc1, hr1⟩ := replaceAll_single search1 repl1 c (by decide) h1
  have hcount2 : countOccs search2 (a1 ++ repl1 ++ b1) = 1 := by
    rw [countOccs_split (show separated search2 repl1 by decide),
      ← countOccs_split (show separated search2 search1 by decide), ← hc1, h2]
  obtain ⟨a2, b2, hc2, hr2⟩ := replaceAll_single search2 repl2 _ (by decide) hcount2
  have hcount3 : countOccs search3 (a2 ++ repl2 ++ b2) = 1 := by
    rw [countOccs_split (show separated search3 repl2 by decide),
      ← countOccs_split (show separated search3 search2 by decide), ← hc2,
      countOccs_split (show separated search3 repl1 by decide),
      ← countOccs_split (show separated search3 search1 by decide), ← hc1, h3]
  obtain ⟨a3, b3, hc3, hr3⟩ := replaceAll_single search3 repl3 _ (by decide) hcount3
  refine ⟨a1, b1, a2, b2, a3, b3, hc1, hr1, hc2, ?_, hc3, ?_⟩
  · rw [hr1]
    exact hr2
  · show replaceAll search3 repl3 _ = _
    rw [hr1, hr2]
    exact hr3

/-- Witness for C1 at a concrete content holding each literal exactly once. -/
theorem claim1_witness :
    countOccs search1 wOnce = 1 ∧ countOccs search2 wOnce = 1 ∧
    countOccs search3 wOnce = 1 ∧
    ∃ a1 b1 a2 b2 a3 b3,
      wOnce = a1 ++ search1 ++ b1 ∧
      replaceAll search1 repl1 wOnce = a1 ++ repl1 ++ b1 ∧
      a1 ++ repl1 ++ b1 = a2 ++ search2 ++ b2 ∧
      replaceAll search2 repl2 (replaceAll search1 repl1 wOnce) = a2 ++ repl2 ++ b2 ∧
      a2 ++ repl2 ++ b2 = a3 ++ search3 ++ b3 ∧
      fixContent wOnce = a3 ++ repl3 ++ b3 :=
  ⟨by decide, by decide, by decide, claim1 wOnce (by decide) (by decide) (by decide)⟩

/-- Claim C2: the transformation is the three rules applied in their fixed
order, and each rule behaves as Python `str.replace`: a step whose search
literal does not occur leaves the content unchanged (and raises no error),
and a step replaces every non-overlapping occurrence, leftmost first. -/
theorem claim2 :
    (∀ c, fixContent c = rules.foldl (fun acc p => replaceAll p.1 p.2 acc) c) ∧
    ∀ p ∈ rules, ∀ c : List Char,
      (¬ p.1 <:+: c → replaceAll p.1 p.2 c = c) ∧
      (∀ a b, c = a ++ p.1 ++ b → (∀ i, i < a.length → ¬ p.1 <+: c.drop i) →
        replaceAll p.1 p.2 c = a ++ p.2 ++ replaceAll p.1 p.2 b) := by
  constructor
  · intro c
    rfl
  · intro p hp c
    have hpcases : p = (search1, repl1) ∨ p = (search2, repl2) ∨ p = (search3, repl3) := by
      simpa [rules] using hp
    have hpne : p.1 ≠ [] := by
      rcases hpcases with rfl | rfl | rfl <;> decide
    constructor
    · intro hni
      exact replaceAll_no_match _ _ c (no_match_of_not_inf hni)
    · intro a b hcab hno
      subst hcab
      exact replaceAll_leftmost p.1 p.2 hpne a b hno

/-- Witness for C2: rule 1 on a content without its search literal. -/
theorem claim2_witness : replaceAll search1 repl1 wShort = wShort :=
  ((claim2.2 (search1, repl1) (by decide) wShort).1 (by decide))

/-- Claim C3: on a content containing none of the three search literals the
transformation is the identity, yet the script still opens the file for
writing and rewrites it with the identical content. -/
theorem claim3 (fs : FileSystem) (c : List Char) (hc : fs targetPath = some c)
    (h1 : ¬ search1 <:+: c) (h2 : ¬ search2 <:+: c) (h3 : ¬ search3 <:+: c) :
    fixContent c = c ∧
    (runScript fs).2 = [Event.readFile targetPath c, Event.writeFile targetPath c] ∧
    ∃ fs2, (runScript fs).1 = some fs2 ∧ fs2 targetPath = some c := by
  have hfix : fixContent c = c := by
    rw [fixContent,
      replaceAll_no_match search1 repl1 c (no_match_of_not_inf h1),
      replaceAll_no_match search2 repl2 c (no_match_of_not_inf h2),
      replaceAll_no_match search3 repl3 c (no_match_of_not_inf h3)]
  have hrun : runScript fs
      = (some (fun p => if p = targetPath then some (fixContent c) else fs p),
         [Event.readFile targetPath c, Event.writeFile targetPath (fixContent c)]) := by
    simp only [runScript, hc]
  refine ⟨hfix, ?_, ?_⟩
  · rw [hrun, hfix]
  · refine ⟨fun p => if p = targetPath then some c else fs p, ?_, ?_⟩
    · rw [hrun, hfix]
    · simp

/-- Witness for C3 at a concrete filesystem holding an inert content. -/
theorem claim3_witness :
    wFs targetPath = some wHello ∧
    (fixContent wHello = wHello ∧
     (runScript wFs).2 = [Event.readFile targetPath wHello,
        Event.writeFile targetPath wHello] ∧
     ∃ fs2, (runScript wFs).1 = some fs2 ∧ fs2 targetPath = some wHello) :=
  ⟨by simp [wFs], claim3 wFs wHello (by simp [wFs])
    (by decide) (by decide) (by decide)⟩

/-- Counterexample to claim C4 as stated: after one application of the
transformation the content can still contain the first search literal —
rule 1's replacement recreates it — so a second application of rules one and
two does change the content. -/
theorem claim4_counterexample :
    search1 <:+: fixContent cxTwice ∧
    replaceAll search2 repl2 (replaceAll search1 repl1 (fixContent cxTwice))
      ≠ fixContent cxTwice := by
  constructor
  · decide
  · decide

/-- Claim C4 (amended): when the content produced by one application contains
neither of the first two search literals, a second application of rules one
and two leaves it unchanged. -/
theorem claim4 (c : List Char)
    (h1 : ¬ search1 <:+: fixContent c) (h2 : ¬ search2 <:+: fixContent c) :
    replaceAll search2 repl2 (replaceAll search1 repl1 (fixContent c)) = fixContent c := by
  rw [replaceAll_no_match search1 repl1 _ (no_match_of_not_inf h1),
    replaceAll_no_match search2 repl2 _ (no_match_of_not_inf h2)]

/-- Witness for the amended C4 at a concrete content. -/
theorem claim4_witness :
    (¬ search1 <:+: fixContent wShort) ∧ (¬ search2 <:+: fixContent wShort) ∧
    replaceAll search2 repl2 (replaceAll search1 repl1 (fixContent wShort))
      = fixContent wShort :=
  ⟨by decide, by decide, claim4 wShort (by decide) (by decide)⟩

/-- Claim C5: when the target path does not exist the run fails at the read,
no event (in particular no write) is performed, and the filesystem is
unchanged. -/
theorem claim5 (fs : FileSystem) (h : fs targetPath = none) :
    (runScript fs).1 = none ∧ (runScript fs).2 = [] ∧
    (∀ p c, Event.writeFile p c ∉ (runScript fs).2) ∧ finalFs fs = fs := by
  have hrun : runScript fs = (none, []) := by simp only [runScript, h]
  refine ⟨by rw [hrun], by rw [hrun], ?_, ?_⟩
  · intro p c
    rw [hrun]
    simp
  · rw [finalFs, hrun]
    rfl

/-- Witness for C5 at the empty filesystem. -/
theorem claim5_witness :
    wFsEmpty targetPath = none ∧
    ((runScript wFsEmpty).1 = none ∧ (runScript wFsEmpty).2 = [] ∧
     (∀ p c, Event.writeFile p c ∉ (runScript wFsEmpty).2) ∧ finalFs wFsEmpty = wFsEmpty) :=
  ⟨rfl, claim5 wFsEmpty rfl⟩

/-- Claim C6: any content containing the scenario import line is transformed
so that exactly that line becomes the import line without `defer`, the rest
of the content being transformed independently. -/
theorem claim6 (a b : List Char) :
    fixContent (a ++ lineImportIn ++ b) = fixContent a ++ lineImportOut ++ fixContent b := by
  show replaceAll search3 repl3 (replaceAll search2 repl2 (replaceAll search1 repl1 _)) = _
  rw [replaceAll_split3 search1 repl1 lineImportIn (by decide) a b,
    (show replaceAll search1 repl1 lineImportIn = lineImportOut by decide),
    replaceAll_split3 search2 repl2 lineImportOut (by decide),
    (show replaceAll search2 repl2 lineImportOut = lineImportOut by decide),
    replaceAll_split3 search3 repl3 lineImportOut (by decide),
    (show replaceAll search3 repl3 lineImportOut = lineImportOut by decide)]
  rfl

/-- Claim C7: any content containing the scenario `  return defer({` line is
transformed so that exactly that line becomes `  return {`, the rest of the
content being transformed independently. -/
theorem claim7 (a b : List Char) :
    fixContent (a ++ lineReturnIn ++ b) = fixContent a ++ lineReturnOut ++ fixContent b := by
  show replaceAll search3 repl3 (replaceAll search2 repl2 (replaceAll search1 repl1 _)) = _
  rw [replaceAll_split3 search1 repl1 lineReturnIn (by decide) a b,
    (show replaceAll search1 repl1 lineReturnIn = lineReturnIn by decide),
    replaceAll_split3 search2 repl2 lineReturnIn (by decide),
    (show replaceAll search2 repl2 lineReturnIn = lineReturnOut by decide),
    replaceAll_split3 search3 repl3 lineReturnOut (by decide),
    (show replaceAll search3 repl3 lineReturnOut = lineReturnOut by decide)]
  rfl

/-- Claim C8: any content containing the two-line sequence `  });\n};` is
transformed so that exactly that sequence becomes `  };\n};`, the rest of the
content being transformed independently. -/
theorem claim8 (a b : List Char) :
    fixContent (a ++ search3 ++ b) = fixContent a ++ repl3 ++ fixContent b := by
  show replaceAll search3 repl3 (replaceAll search2 repl2 (replaceAll search1 repl1 _)) = _
  rw [replaceAll_split3 search1 repl1 search3 (by decide) a b,
    (show replaceAll search1 repl1 search3 = search3 by decide),
    replaceAll_split3 search2 repl2 search3 (by decide),
    (show replaceAll search2 repl2 search3 = search3 by decide),
    replaceAll_split3 search3 repl3 search3 (by decide),
    (show replaceAll search3 repl3 search3 = repl3 by decide)]
  rfl

/-- Claim C9: a successful run reads and overwrites exactly the one hardcoded
path — the trace is one read and one write at `targetPath`, every other path
is untouched — and the observable trace depends only on the content at the
target path. -/
theorem claim9 (fs : FileSystem) (c : List Char) (hc : fs targetPath = some c) :
    (runScript fs).2
      = [Event.readFile targetPath c, Event.writeFile targetPath (fixContent c)] ∧
    (∃ fs2, (runScript fs).1 = some fs2 ∧ fs2 targetPath = some (fixContent c) ∧
      ∀ p, p ≠ targetPath → fs2 p = fs p) ∧
    (∀ g : FileSystem, g targetPath = fs targetPath → (runScript g).2 = (runScript fs).2) := by
  have hrun : runScript fs
      = (some (fun p => if p = targetPath then some (fixContent c) else fs p),
         [Event.readFile targetPath c, Event.writeFile targetPath (fixContent c)]) := by
    simp only [runScript, hc]
  refine ⟨by rw [hrun], ?_, ?_⟩
  · refine ⟨fun p => if p = targetPath then some (fixContent c) else fs p, by rw [hrun], by simp, ?_⟩
    intro p hp
    simp [if_neg hp]
  · intro g hg
    have hgc : g targetPath = some c := by rw [hg, hc]
    have hrung : runScript g
        = (some (fun p => if p = targetPath then some (fixContent c) else g p),
           [Event.readFile targetPath c, Event.writeFile targetPath (fixContent c)]) := by
      simp only [runScript, hgc]
    rw [hrun, hrung]

/-- Witness for C9 at a concrete filesystem. -/
theorem claim9_witness :
    wFs targetPath = some wHello ∧
    ((runScript wFs).2 = [Event.readFile targetPath wHello,
        Event.writeFile targetPath (fixContent wHello)] ∧
     (∃ fs2, (runScript wFs).1 = some fs2 ∧
        fs2 targetPath = some (fixContent wHello) ∧
        ∀ p, p ≠ targetPath → fs2 p = wFs p) ∧
     (∀ g : FileSystem, g targetPath = wFs targetPath →
        (runScript g).2 = (runScript wFs).2)) :=
  ⟨by simp [wFs], claim9 wFs wHello (by simp [wFs])⟩

/-- Claim C10: the written content is a pure, deterministic function of the
content read — two runs over filesystems agreeing at the target path write
the identical content, namely `fixContent` of what was read. -/
theorem claim10 (fs1 fs2 : FileSystem) (c : List Char)
    (h1 : fs1 targetPath = some c) (h2 : fs2 targetPath = some c) :
    ∃ g1 g2, (runScript fs1).1 = some g1 ∧ (runScript fs2).1 = some g2 ∧
      g1 targetPath = g2 targetPath ∧ g1 targetPath = some (fixContent c) := by
  have hrun1 : runScript fs1
      = (some (fun p => if p = targetPath then some (fixContent c) else fs1 p),
         [Event.readFile targetPath c, Event.writeFile targetPath (fixContent c)]) := by
    simp only [runScript, h1]
  have hrun2 : runScript fs2
      = (some (fun p => if p = targetPath then some (fixContent c) else fs2 p),
         [Event.readFile targetPath c, Event.writeFile targetPath (fixContent c)]) := by
    simp only [runScript, h2]
  exact ⟨_, _, by rw [hrun1], by rw [hrun2], by simp, by simp⟩

/-- Witness for C10 at two filesystems differing away from the target path. -/
theorem claim10_witness :
    wFs targetPath = some wHello ∧
    wFs2 targetPath = some wHello ∧
    ∃ g1 g2, (runScript wFs).1 = some g1 ∧ (runScript wFs2).1 = some g2 ∧
      g1 targetPath = g2 targetPath ∧
      g1 targetPath = some (fixContent wHello) :=
  ⟨by simp [wFs], by simp [wFs2],
    claim10 wFs wFs2 wHello (by simp [wFs]) (by simp [wFs2])⟩

end FixDefer
